import Mathlib

/-!
Verification of the FileCryptor core of the sodium-wrapper repository
(src/include/filecryptor.h together with the sodiumfilecryptor.cpp
implementation bundled in the same source file).

Byte streams are modelled as lists of natural numbers.  The AEAD engine
(CryptorAEAD), the generic hash (crypto_generichash) and the Nonce value
object are collaborators whose code is not under src/; following the spec
they are modelled as abstract structures carrying exactly the laws the spec
states for them, together with executable toy instances used to evaluate
the model at concrete inputs.  The running nonce is modelled as a natural
counter: only the succession of nonce values matters to the core, never
their byte representation.
-/

namespace FileCryptor

abbrev Byte := Nat

/-- Modelled from the spec: MACSIZE is the fixed tag size that the Engine
(CryptorAEAD, a collaborator outside src/) bundles with every ciphertext
block; the spec fixes a ciphertext block at MACSIZE + plaintext length
bytes.  Libsodium value: crypto_aead_chacha20poly1305_ABYTES = 16. -/
def MACSIZE : Nat := 16

/-- Modelled from the spec: the AEAD key size the Engine requires exactly
(Key.KEYSIZE_AEAD, libsodium value 32). -/
def KEYSIZE_AEAD : Nat := 32

/-- Modelled from the spec: minimum hash key size
(Key.KEYSIZE_HASHKEY_MIN, libsodium value 16). -/
def HASHKEYSIZE_MIN : Nat := 16

/-- Modelled from the spec: maximum hash key size
(Key.KEYSIZE_HASHKEY_MAX, libsodium value 64). -/
def HASHKEYSIZE_MAX : Nat := 64

/-- Modelled from the spec: minimum digest size
(crypto_generichash_BYTES_MIN, libsodium value 16). -/
def HASHSIZE_MIN : Nat := 16

/-- Modelled from the spec: maximum digest size
(crypto_generichash_BYTES_MAX, libsodium value 64). -/
def HASHSIZE_MAX : Nat := 64

/-- Modelled from the spec: the Block Cipher Engine collaborator.  enc takes
associated data, plaintext, key and the nonce counter and returns the
ciphertext-and-tag unit; dec is its fallible inverse, none meaning the
Engine rejected the input (tag mismatch or malformed input). -/
structure Engine where
  enc : List Byte → List Byte → List Byte → Nat → List Byte
  dec : List Byte → List Byte → List Byte → Nat → Option (List Byte)

/-- Modelled from the spec: the laws the spec states for the Engine.  A
ciphertext block is MACSIZE + plaintext length bytes; decryption inverts
encryption under the same associated data, key and nonce; an input shorter
than MACSIZE cannot contain a tag, hence is malformed and rejected. -/
structure EngineLawful (E : Engine) : Prop where
  enc_length : ∀ hdr pt key n, (E.enc hdr pt key n).length = MACSIZE + pt.length
  dec_enc : ∀ hdr pt key n, E.dec hdr (E.enc hdr pt key n) key n = some pt
  dec_short : ∀ hdr ct key n, ct.length < MACSIZE → E.dec hdr ct key n = none

/-- Modelled from the spec: the Stream Hash Accumulator collaborator.  Its
incremental update calls amount to hashing the concatenation of all bytes
fed to it, so the model keeps the accumulated message and applies a single
keyed hash function with a chosen output size. -/
structure GHash where
  hash : List Byte → Nat → List Byte → List Byte

/-- Modelled from the spec: the digest produced by the Accumulator has
exactly the requested output size. -/
def GHashLawful (G : GHash) : Prop :=
  ∀ key sz msg, (G.hash key sz msg).length = sz

/-- The immutable configuration a FileCryptor instance stores: key_, nonce_
(the initial nonce), header_ (default-initialized empty), blocksize_,
hashkey_ and hashsize_ (filecryptor.h lines 95-101, 155-159). -/
structure Config where
  key : List Byte
  nonce : Nat
  header : List Byte
  blocksize : Nat
  hashkey : List Byte
  hashsize : Nat

/-- The four runtime errors the constructor can throw
(filecryptor.h lines 103-110); the spec groups them as ConfigurationError. -/
inductive CtorError
  | wrongKeySize
  | wrongBlocksize
  | hashKeyTooSmall
  | hashKeyTooBig
deriving DecidableEq

/-- Boolean success test for an Except value. -/
def ctorOk {ε α : Type} (r : Except ε α) : Bool :=
  match r with
  | .ok _ => true
  | .error _ => false

/-- The FileCryptor constructor (filecryptor.h lines 95-112): stores the
configuration after the four sanity checks, in source order.  Note the
source checks the key size, the blocksize and the hash key bounds, but
never the hashsize. -/
def mkFileCryptor (key : List Byte) (nonce : Nat) (blocksize : Nat)
    (hashkey : List Byte) (hashsize : Nat) : Except CtorError Config :=
  if key.length ≠ KEYSIZE_AEAD then .error .wrongKeySize
  else if blocksize < 1 then .error .wrongBlocksize
  else if hashkey.length < HASHKEYSIZE_MIN then .error .hashKeyTooSmall
  else if HASHKEYSIZE_MAX < hashkey.length then .error .hashKeyTooBig
  else .ok ⟨key, nonce, [], blocksize, hashkey, hashsize⟩

/-- The encrypt loop of sodiumfilecryptor.cpp lines 188-222, producing the
list of ciphertext blocks in stream order.  Each iteration reads blocksize
bytes: a full read encrypts the block under the current running nonce and
increments it; a final short, nonempty read encrypts the remainder under
the current nonce (no increment afterward); a zero-byte read stops.  The
fuel argument is only a structural termination measure; any fuel above the
source length is exact (the source forbids blocksize 0 at construction,
which is the only way the loop could fail to shrink its input). -/
def encBlocksGo (E : Engine) (hdr key : List Byte) (bs : Nat) :
    Nat → Nat → List Byte → List (List Byte)
  | 0, _, _ => []
  | fuel + 1, nonce, src =>
    if 0 < bs ∧ bs ≤ src.length then
      E.enc hdr (src.take bs) key nonce ::
        encBlocksGo E hdr key bs fuel (nonce + 1) (src.drop bs)
    else if src.isEmpty then []
    else [E.enc hdr src key nonce]

/-- The ciphertext blocks encrypt writes, with sufficient fuel. -/
def encryptCore (E : Engine) (hdr key : List Byte) (bs nonce : Nat)
    (src : List Byte) : List (List Byte) :=
  encBlocksGo E hdr key bs (src.length + 1) nonce src

/-- FileCryptor::encrypt (sodiumfilecryptor.cpp lines 177-229): writes the
ciphertext blocks in order, then the keyed hash of all bytes written so
far (the streaming generichash updates amount to hashing the concatenated
blocks), sized hashsize.  Stream writes to the sink are modelled as always
succeeding; the source models a write failure as an immediate throw, which
no claim here depends on. -/
def encrypt (E : Engine) (G : GHash) (cfg : Config) (src : List Byte) : List Byte :=
  let blocks := encryptCore E cfg.header cfg.key cfg.blocksize cfg.nonce src
  blocks.flatten ++ G.hash cfg.hashkey cfg.hashsize blocks.flatten

/-- The plaintext chunking encrypt performs: full blocksize chunks, then a
possibly shorter final chunk.  Same fuel discipline as encBlocksGo. -/
def chunkBlocksGo (bs : Nat) : Nat → List Byte → List (List Byte)
  | 0, _ => []
  | fuel + 1, src =>
    if 0 < bs ∧ bs ≤ src.length then
      src.take bs :: chunkBlocksGo bs fuel (src.drop bs)
    else if src.isEmpty then []
    else [src]

/-- Chunking with sufficient fuel. -/
def chunkBlocks (bs : Nat) (src : List Byte) : List (List Byte) :=
  chunkBlocksGo bs (src.length + 1) src

/-- The error exits of FileCryptor::decrypt.  tooShort is the throw at
line 250 (seeking hashsize bytes back from the end fails on a shorter
input); engineFailure is a throw out of sc_aead_.decrypt (per-block tag
mismatch or malformed input); hashMismatch is the throw at line 334.  The
spec groups all three under IntegrityError. -/
inductive DecError
  | tooShort
  | engineFailure
  | hashMismatch
deriving DecidableEq

/-- The decrypt read loop plus the final-short-chunk handling
(sodiumfilecryptor.cpp lines 265-327), operating on the remaining input
suffix rem.  csz is MACSIZE + blocksize, hs the hashsize.  Returns the
plaintext written to the sink, the bytes fed to the hash accumulator, and
the error if a block failed to decrypt.  Branches, in source order:
a full csz read that lands past hash_pos keeps only the bytes before
hash_pos, sets in_mac and is terminal (lines 274-288, the nonce increment
after it is dead); a full read inside the ciphertext region recurses with
the incremented nonce; a failed read with zero bytes ends the loop; a
failed nonempty read is the terminal chunk, its stream position is -1, so
the trailing hashsize bytes are dropped when more than hashsize bytes were
read and the buffer is cleared otherwise, and the result - possibly the
empty buffer - is handed to the Engine (lines 291-326).  On the paths
reachable from decrypt, rem always holds at least hs bytes.  Fuel as in
encBlocksGo; csz is at least MACSIZE, hence positive, on every call the
source can make. -/
def decBlocksGo (E : Engine) (hdr key : List Byte) (csz hs : Nat) :
    Nat → Nat → List Byte → List Byte × List Byte × Option DecError
  | 0, _, _ => ([], [], none)
  | fuel + 1, nonce, rem =>
    if 0 < csz ∧ csz ≤ rem.length then
      if rem.length < csz + hs then
        let chunk := (rem.take csz).take (rem.length - hs)
        match E.dec hdr chunk key nonce with
        | none => ([], [], some .engineFailure)
        | some pt => (pt, chunk, none)
      else
        let chunk := rem.take csz
        match E.dec hdr chunk key nonce with
        | none => ([], [], some .engineFailure)
        | some pt =>
          let r := decBlocksGo E hdr key csz hs fuel (nonce + 1) (rem.drop csz)
          (pt ++ r.1, chunk ++ r.2.1, r.2.2)
    else if rem.isEmpty then ([], [], none)
    else
      let chunk := if hs < rem.length then rem.take (rem.length - hs) else []
      match E.dec hdr chunk key nonce with
      | none => ([], [], some .engineFailure)
      | some pt => (pt, chunk, none)

/-- The decrypt block phase with sufficient fuel. -/
def decryptBlocks (E : Engine) (hdr key : List Byte) (csz hs nonce : Nat)
    (rem : List Byte) : List Byte × List Byte × Option DecError :=
  decBlocksGo E hdr key csz hs (rem.length + 1) nonce rem

/-- FileCryptor::decrypt (sodiumfilecryptor.cpp lines 231-335): fails at
once when the input cannot hold a hashsize digest (the backwards seek at
line 248 fails); otherwise the stored digest is the final hashsize bytes,
the block phase runs from the start of the input with a fresh running
nonce, and finally the recomputed digest is compared with the stored one,
a mismatch aborting the operation.  The first component of the result is
everything written to the sink before success or abort. -/
def decrypt (E : Engine) (G : GHash) (cfg : Config) (input : List Byte) :
    List Byte × Option DecError :=
  if input.length < cfg.hashsize then ([], some .tooShort)
  else
    let r := decryptBlocks E cfg.header cfg.key (MACSIZE + cfg.blocksize)
      cfg.hashsize cfg.nonce input
    match r.2.2 with
    | some e => (r.1, some e)
    | none =>
      if G.hash cfg.hashkey cfg.hashsize r.2.1
          = input.drop (input.length - cfg.hashsize) then (r.1, none)
      else (r.1, some .hashMismatch)

/-- A toy tag for the executable Engine instance: a checksum of associated
data, plaintext, key and nonce. -/
def toyTag (hdr pt key : List Byte) (nonce : Nat) : Nat :=
  (hdr.sum + pt.sum + pt.length + key.sum + nonce) % 251

/-- An executable Engine instance satisfying the spec laws: the tag is
replicated MACSIZE times in front of the plaintext, and decryption checks
the tag before stripping it. -/
def toyEngine : Engine where
  enc hdr pt key n := List.replicate MACSIZE (toyTag hdr pt key n) ++ pt
  dec hdr ct key n :=
    if MACSIZE ≤ ct.length ∧
        ct.take MACSIZE = List.replicate MACSIZE (toyTag hdr (ct.drop MACSIZE) key n) then
      some (ct.drop MACSIZE)
    else none

/-- An executable Accumulator instance satisfying the spec law: byte i of
the digest is a checksum of the key, the message and i. -/
def toyHash : GHash where
  hash key sz msg := (List.range sz).map (fun i => (key.sum + msg.sum + msg.length + i) % 251)

/-- A ghost Engine whose only output is the nonce it was called with; it
makes the nonce schedule of the orchestration code directly observable. -/
def probeEngine : Engine where
  enc _ _ _ n := [n]
  dec _ _ _ n := some [n]

/-- A well-sized AEAD key for concrete runs. -/
def key32 : List Byte := List.replicate 32 1

/-- A well-sized hash key for concrete runs. -/
def hk16 : List Byte := List.replicate 16 2

/-- A valid configuration with the given blocksize, initial nonce 5 and
hashsize 16. -/
def cfgAt (bs : Nat) : Config :=
  { key := key32, nonce := 5, header := [], blocksize := bs,
    hashkey := hk16, hashsize := 16 }

theorem toyHash_lawful : GHashLawful toyHash := by
  intro key sz msg
  simp [toyHash]

theorem toyEngine_lawful : EngineLawful toyEngine := by
  refine ⟨?_, ?_, ?_⟩
  · intro hdr pt key n
    simp [toyEngine]
  · intro hdr pt key n
    have hlen : (List.replicate MACSIZE (toyTag hdr pt key n)).length = MACSIZE :=
      List.length_replicate _ _
    have htk : (List.replicate MACSIZE (toyTag hdr pt key n) ++ pt).take MACSIZE
        = List.replicate MACSIZE (toyTag hdr pt key n) := List.take_left' hlen
    have hdr2 : (List.replicate MACSIZE (toyTag hdr pt key n) ++ pt).drop MACSIZE = pt :=
      List.drop_left' hlen
    show toyEngine.dec hdr (List.replicate MACSIZE (toyTag hdr pt key n) ++ pt) key n = some pt
    simp [toyEngine, htk, hdr2]
  · intro hdr ct key n h
    simp only [toyEngine]
    rw [if_neg]
    intro hc
    omega

/-- Claim C4, counterexample: a configuration whose hashsize 0 lies outside
the bracket of HASHSIZE_MIN and HASHSIZE_MAX is nevertheless accepted: the
constructor never checks the hashsize, so an out-of-range hashsize is not
rejected at construction time. -/
theorem ctor_accepts_bad_hashsize :
    ctorOk (mkFileCryptor key32 0 1 hk16 0) = true ∧ 0 < HASHSIZE_MIN := by
  decide

/-- Claim C4, amended: construction succeeds exactly when the key size is
KEYSIZE_AEAD, the blocksize is at least 1 and the hash key size lies in the
bracket of HASHKEYSIZE_MIN and HASHKEYSIZE_MAX; violating any of those
checks fails construction with a ConfigurationError and construction has no
side effect, but hashsize is not validated at construction time. -/
theorem mkFileCryptor_ok_iff (key : List Byte) (nonce bs : Nat)
    (hashkey : List Byte) (hashsize : Nat) :
    ctorOk (mkFileCryptor key nonce bs hashkey hashsize) = true ↔
      (key.length = KEYSIZE_AEAD ∧ 1 ≤ bs ∧ HASHKEYSIZE_MIN ≤ hashkey.length ∧
        hashkey.length ≤ HASHKEYSIZE_MAX) := by
  unfold mkFileCryptor ctorOk
  split_ifs with h1 h2 h3 h4 <;> simp <;> omega

/-- Claim C8: an input shorter than hashsize bytes makes decrypt abort at
once (the backwards seek for the stored digest fails), with nothing written
to the sink and no ciphertext block processed. -/
theorem decrypt_too_short (E : Engine) (G : GHash) (cfg : Config)
    (input : List Byte) (h : input.length < cfg.hashsize) :
    decrypt E G cfg input = ([], some .tooShort) := by
  unfold decrypt
  rw [if_pos h]

theorem decrypt_too_short_witness :
    decrypt toyEngine toyHash (cfgAt 16) [] = ([], some DecError.tooShort) :=
  decrypt_too_short toyEngine toyHash (cfgAt 16) [] (by decide)

/-- Claim C9: encrypt is deterministic.  In the model the whole encrypt
operation is a pure function of the configuration (key, initial nonce,
blocksize, hash key, hashsize, header) and the source bytes - the source
code consumes no randomness anywhere in FileCryptor::encrypt - so equal
configurations and equal plaintexts give byte-identical artifacts. -/
theorem encrypt_deterministic (E : Engine) (G : GHash) (cfg1 cfg2 : Config)
    (src1 src2 : List Byte) (hc : cfg1 = cfg2) (hp : src1 = src2) :
    encrypt E G cfg1 src1 = encrypt E G cfg2 src2 := by
  subst hc
  subst hp
  rfl

theorem encrypt_deterministic_witness :
    encrypt toyEngine toyHash (cfgAt 3) [1, 2, 3]
      = encrypt toyEngine toyHash (cfgAt 3) [1, 2, 3] :=
  encrypt_deterministic toyEngine toyHash (cfgAt 3) (cfgAt 3) [1, 2, 3] [1, 2, 3]
    rfl rfl

/-- Claim C1, evaluated at failing inputs: with blocksize 1 and hashsize 16
the one-byte plaintext is one full block, and decrypt of its artifact
aborts with an Engine failure instead of succeeding - the final short read
is entirely digest, yet the cleared buffer is still handed to the Engine
(the XXX line of the source).  The same run with blocksize 2 makes the
plaintext a short terminal block and the round trip succeeds, so the
failure is specific to plaintexts whose length is a multiple of the
blocksize (the empty plaintext, one full block, several full blocks). -/
theorem roundtrip_block_multiple_fails :
    decrypt toyEngine toyHash (cfgAt 1) (encrypt toyEngine toyHash (cfgAt 1) [7])
      = ([7], some DecError.engineFailure) ∧
    decrypt toyEngine toyHash (cfgAt 2) (encrypt toyEngine toyHash (cfgAt 2) [7])
      = ([7], none) := by
  decide

/-- Claim C2, evaluated at the failing input: encrypt of an empty source
with blocksize 16 and hashsize 16 does write exactly hashsize bytes (the
digest only), but decrypt of that digest-only artifact aborts with an
Engine failure instead of succeeding with empty output: the terminal chunk
is entirely digest, the buffer is cleared, and the empty buffer is still
handed to the Engine, which rejects it as malformed. -/
theorem empty_source_roundtrip_fails :
    (encrypt toyEngine toyHash (cfgAt 16) []).length = (cfgAt 16).hashsize ∧
    decrypt toyEngine toyHash (cfgAt 16) (encrypt toyEngine toyHash (cfgAt 16) [])
      = ([], some DecError.engineFailure) := by
  decide

/-- Claim C3, evaluated: with blocksize 18 and hashsize 16, a one-byte
plaintext gives a terminal short read of 33 bytes ending exactly at
end-of-input; its length exceeds hashsize, the trailing 16 digest bytes
are stripped, the rest goes to the Engine and decryption succeeds (the
first half of the claim).  With the empty plaintext the terminal short
read is 16 bytes, at most hashsize: the claim says the Engine is not
invoked at all for that iteration, but the code clears the buffer and
still calls the Engine on the empty buffer, which rejects it - decrypt
ends in an Engine failure instead of the success that skipping would
produce. -/
theorem terminal_chunk_engine_called :
    decrypt toyEngine toyHash (cfgAt 18) (encrypt toyEngine toyHash (cfgAt 18) [7])
      = ([7], none) ∧
    decrypt toyEngine toyHash (cfgAt 18) (encrypt toyEngine toyHash (cfgAt 18) [])
      = ([], some DecError.engineFailure) := by
  decide

/-- Specification-side description of the encrypt loop: one Engine call per
plaintext chunk, the running nonce increasing by one per block starting
from the initial nonce. -/
def encMap (E : Engine) (hdr key : List Byte) : Nat → List (List Byte) → List (List Byte)
  | _, [] => []
  | nonce, c :: cs => E.enc hdr c key nonce :: encMap E hdr key (nonce + 1) cs

theorem chunkBlocksGo_flatten (bs : Nat) :
    ∀ fuel src, src.length < fuel → (chunkBlocksGo bs fuel src).flatten = src := by
  intro fuel
  induction fuel with
  | zero => intro src h; exact absurd h (Nat.not_lt_zero _)
  | succ f ih =>
    intro src h
    simp only [chunkBlocksGo]
    split
    · next hc =>
      have hlen : (src.drop bs).length < f := by
        rw [List.length_drop]; omega
      rw [List.flatten_cons, ih _ hlen, List.take_append_drop]
    · split
      · next he =>
        rw [List.isEmpty_iff] at he
        simp [he]
      · simp

theorem chunkBlocks_flatten (bs : Nat) (src : List Byte) :
    (chunkBlocks bs src).flatten = src :=
  chunkBlocksGo_flatten bs _ src (Nat.lt_succ_self _)

theorem encBlocksGo_eq_encMap (E : Engine) (hdr key : List Byte) (bs : Nat) :
    ∀ fuel nonce src, src.length < fuel →
      encBlocksGo E hdr key bs fuel nonce src
        = encMap E hdr key nonce (chunkBlocksGo bs fuel src) := by
  intro fuel
  induction fuel with
  | zero => intro _ src h; exact absurd h (Nat.not_lt_zero _)
  | succ f ih =>
    intro nonce src h
    simp only [encBlocksGo, chunkBlocksGo]
    split
    · next hc =>
      have hlen : (src.drop bs).length < f := by
        rw [List.length_drop]; omega
      simp only [encMap]
      rw [ih _ _ hlen]
    · split
      · simp [encMap]
      · simp [encMap]

theorem encryptCore_eq_encMap (E : Engine) (hdr key : List Byte) (bs nonce : Nat)
    (src : List Byte) :
    encryptCore E hdr key bs nonce src = encMap E hdr key nonce (chunkBlocks bs src) :=
  encBlocksGo_eq_encMap E hdr key bs _ nonce src (Nat.lt_succ_self _)

theorem encMap_lengths (E : Engine) (hdr key : List Byte)
    (hE : ∀ hdr pt key n, (E.enc hdr pt key n).length = MACSIZE + pt.length) :
    ∀ nonce cs, (encMap E hdr key nonce cs).map List.length
      = cs.map (fun c => MACSIZE + c.length) := by
  intro nonce cs
  induction cs generalizing nonce with
  | nil => rfl
  | cons c cs ih => simp [encMap, hE, ih]

/-- Claim C6: the bytes encrypt writes are exactly the per-block
ciphertexts in stream order followed by the digest of those bytes: the
block list has one entry of size MACSIZE + chunk length per plaintext
chunk (the chunks being full blocksize pieces with a possibly shorter
final piece, reassembling the source), the digest is the keyed hash of the
concatenated blocks and nothing else, and the total artifact length is the
sum of the per-block sizes plus hashsize. -/
theorem encrypt_layout (E : Engine) (G : GHash) (hE : EngineLawful E)
    (hG : GHashLawful G) (cfg : Config) (src : List Byte) :
    encrypt E G cfg src
        = (encryptCore E cfg.header cfg.key cfg.blocksize cfg.nonce src).flatten
          ++ G.hash cfg.hashkey cfg.hashsize
              (encryptCore E cfg.header cfg.key cfg.blocksize cfg.nonce src).flatten
    ∧ (encryptCore E cfg.header cfg.key cfg.blocksize cfg.nonce src).map List.length
        = (chunkBlocks cfg.blocksize src).map (fun c => MACSIZE + c.length)
    ∧ (chunkBlocks cfg.blocksize src).flatten = src
    ∧ (encrypt E G cfg src).length
        = ((chunkBlocks cfg.blocksize src).map (fun c => MACSIZE + c.length)).sum
          + cfg.hashsize := by
  have hmap : (encryptCore E cfg.header cfg.key cfg.blocksize cfg.nonce src).map List.length
      = (chunkBlocks cfg.blocksize src).map (fun c => MACSIZE + c.length) := by
    rw [encryptCore_eq_encMap]
    exact encMap_lengths E _ _ hE.enc_length _ _
  refine ⟨rfl, hmap, chunkBlocks_flatten _ _, ?_⟩
  show (encrypt E G cfg src).length = _
  unfold encrypt
  rw [List.length_append, hG]
  congr 1
  rw [List.length_flatten, hmap]

theorem encrypt_layout_witness :
    (encrypt toyEngine toyHash (cfgAt 3) [1, 2, 3, 4]).length
      = ((chunkBlocks 3 [1, 2, 3, 4]).map (fun c => MACSIZE + c.length)).sum + 16 := by
  have h := (encrypt_layout toyEngine toyHash toyEngine_lawful toyHash_lawful
    (cfgAt 3) [1, 2, 3, 4]).2.2.2
  simpa [cfgAt] using h

theorem range_map_add_succ (n m : Nat) :
    (List.range (m + 1)).map (fun i => n + i)
      = n :: (List.range m).map (fun i => n + 1 + i) := by
  rw [List.range_succ_eq_map, List.map_cons, List.map_map]
  refine congrArg₂ _ (by simp) ?_
  refine List.map_congr_left ?_
  intro a _
  simp only [Function.comp_apply]
  omega

theorem range_map_add_succ_list (n m : Nat) :
    (List.range (m + 1)).map (fun i => ([n + i] : List Byte))
      = [n] :: (List.range m).map (fun i => [n + 1 + i]) := by
  rw [List.range_succ_eq_map, List.map_cons, List.map_map]
  refine congrArg₂ _ (by simp) ?_
  refine List.map_congr_left ?_
  intro a _
  simp only [Function.comp_apply]
  have hsh : n + Nat.succ a = n + 1 + a := by omega
  rw [hsh]

theorem encMap_probe (hdr key : List Byte) :
    ∀ nonce cs, encMap probeEngine hdr key nonce cs
      = (List.range cs.length).map (fun i => [nonce + i]) := by
  intro nonce cs
  induction cs generalizing nonce with
  | nil => rfl
  | cons c cs ih =>
    rw [List.length_cons, range_map_add_succ_list]
    simp only [encMap]
    rw [ih]
    rfl

theorem decBlocksGo_probe (hdr key : List Byte) (csz hs : Nat) :
    ∀ fuel nonce rem, ∃ m,
      (decBlocksGo probeEngine hdr key csz hs fuel nonce rem).1
        = (List.range m).map (fun i => nonce + i) := by
  intro fuel
  induction fuel with
  | zero => intro nonce rem; exact ⟨0, rfl⟩
  | succ f ih =>
    intro nonce rem
    simp only [decBlocksGo]
    split
    · split
      · refine ⟨1, ?_⟩
        simp [probeEngine, List.range_succ]
      · obtain ⟨m, hm⟩ := ih (nonce + 1) (rem.drop csz)
        refine ⟨m + 1, ?_⟩
        rw [range_map_add_succ, ← hm]
        simp [probeEngine]
    · split
      · exact ⟨0, rfl⟩
      · refine ⟨1, ?_⟩
        simp [probeEngine, List.range_succ]

/-- Claim C7: the nonce schedule.  Both sides derive a running counter
from the initial nonce of the immutable configuration, which the model
passes by value and never mutates.  Instantiating the Engine with a probe
that merely reports the nonce of each call shows that encrypt produces its
nth ciphertext block under the initial nonce incremented exactly n times
(one increment per full block, the terminal short block reusing the
current value), and that the decrypt block phase hands its nth chunk to
the Engine under exactly the same nth nonce value, for every input. -/
theorem nonce_per_block :
    (∀ hdr key bs nonce src,
        encryptCore probeEngine hdr key bs nonce src
          = (List.range (chunkBlocks bs src).length).map (fun i => [nonce + i]))
    ∧ (∀ hdr key csz hs nonce rem, ∃ m,
        (decryptBlocks probeEngine hdr key csz hs nonce rem).1
          = (List.range m).map (fun i => nonce + i)) := by
  constructor
  · intro hdr key bs nonce src
    rw [encryptCore_eq_encMap, encMap_probe]
  · intro hdr key csz hs nonce rem
    exact decBlocksGo_probe hdr key csz hs _ nonce rem

theorem decBlocksGo_err (E : Engine) (hdr key : List Byte) (csz hs : Nat) :
    ∀ fuel nonce rem,
      (decBlocksGo E hdr key csz hs fuel nonce rem).2.2 = none ∨
      (decBlocksGo E hdr key csz hs fuel nonce rem).2.2 = some .engineFailure := by
  intro fuel
  induction fuel with
  | zero => intro _ _; exact Or.inl rfl
  | succ f ih =>
    intro nonce rem
    simp only [decBlocksGo]
    split
    · split
      · split
        · exact Or.inr rfl
        · exact Or.inl rfl
      · split
        · exact Or.inr rfl
        · exact ih (nonce + 1) (rem.drop csz)
    · split
      · exact Or.inl rfl
      · split
        · exact Or.inr rfl
        · exact Or.inl rfl

theorem decryptBlocks_err (E : Engine) (hdr key : List Byte) (csz hs nonce : Nat)
    (rem : List Byte) :
    (decryptBlocks E hdr key csz hs nonce rem).2.2 = none ∨
    (decryptBlocks E hdr key csz hs nonce rem).2.2 = some .engineFailure :=
  decBlocksGo_err E hdr key csz hs _ nonce rem

/-- Claim C5: once the block phase has processed every ciphertext block
without error (every per-block tag verified), decrypt compares the
recomputed digest byte for byte against the stored digest read from the
trailing hashsize bytes of the input; a difference aborts the operation
with the hash-mismatch IntegrityError, equality lets it succeed, and in
both cases this comparison is the final step. -/
theorem decrypt_digest_check (E : Engine) (G : GHash) (cfg : Config)
    (input w a : List Byte)
    (h1 : cfg.hashsize ≤ input.length)
    (h2 : decryptBlocks E cfg.header cfg.key (MACSIZE + cfg.blocksize)
        cfg.hashsize cfg.nonce input = (w, a, none)) :
    decrypt E G cfg input
      = (w, if G.hash cfg.hashkey cfg.hashsize a
            = input.drop (input.length - cfg.hashsize)
          then none else some DecError.hashMismatch) := by
  unfold decrypt
  rw [if_neg (by omega)]
  simp only [h2]
  split_ifs with hc <;> rfl

def art5 : List Byte := encrypt toyEngine toyHash (cfgAt 2) [7]

/-- The artifact of art5 with its last digest byte altered. -/
def bad5 : List Byte := art5.take 32 ++ [art5.getD 32 0 + 1]

/-- The single ciphertext block of art5. -/
def ct5 : List Byte := toyEngine.enc [] [7] key32 5

theorem decrypt_digest_check_witness :
    decrypt toyEngine toyHash (cfgAt 2) bad5 = ([7], some DecError.hashMismatch) := by
  have h := decrypt_digest_check toyEngine toyHash (cfgAt 2) bad5 [7] ct5
    (by decide) (by decide)
  rw [h]
  decide

/-- Claim C10: when decrypt ends in the whole-stream hash-mismatch abort,
the sink already holds the complete block-phase output: the block phase
finished without error on every block (including the terminal one), every
per-block plaintext write preceded the digest comparison, and the written
bytes are exactly the first component of the completed block phase, not a
truncated prefix of it. -/
theorem decrypt_mismatch_full_output (E : Engine) (G : GHash) (cfg : Config)
    (input w : List Byte)
    (h : decrypt E G cfg input = (w, some DecError.hashMismatch)) :
    w = (decryptBlocks E cfg.header cfg.key (MACSIZE + cfg.blocksize)
          cfg.hashsize cfg.nonce input).1
    ∧ (decryptBlocks E cfg.header cfg.key (MACSIZE + cfg.blocksize)
          cfg.hashsize cfg.nonce input).2.2 = none := by
  unfold decrypt at h
  by_cases hlen : input.length < cfg.hashsize
  · rw [if_pos hlen] at h
    simp at h
  · rw [if_neg hlen] at h
    rcases decryptBlocks_err E cfg.header cfg.key (MACSIZE + cfg.blocksize)
        cfg.hashsize cfg.nonce input with he | he
    · simp only [] at h
      rw [he] at h
      split_ifs at h with hc
      · simp at h
      · simp only [Prod.mk.injEq] at h
        exact ⟨h.1.symm, he⟩
    · simp only [] at h
      rw [he] at h
      simp at h

def art10 : List Byte := encrypt toyEngine toyHash (cfgAt 4) [9, 9, 9]

/-- The artifact of art10 with its last digest byte altered. -/
def bad10 : List Byte := art10.take 34 ++ [art10.getD 34 0 + 1]

theorem decrypt_mismatch_full_output_witness :
    [9, 9, 9] = (decryptBlocks toyEngine (cfgAt 4).header (cfgAt 4).key
        (MACSIZE + (cfgAt 4).blocksize) (cfgAt 4).hashsize (cfgAt 4).nonce bad10).1
    ∧ (decryptBlocks toyEngine (cfgAt 4).header (cfgAt 4).key
        (MACSIZE + (cfgAt 4).blocksize) (cfgAt 4).hashsize (cfgAt 4).nonce bad10).2.2
      = none :=
  decrypt_mismatch_full_output toyEngine toyHash (cfgAt 4) bad10 [9, 9, 9] (by decide)

end FileCryptor
